import Mathlib

/-!
Shallow embedding of the txoutset UTXO-snapshot parser (Rust crate) and
verification of its natural-language specification.

Byte streams are modelled as lists of naturals; every read reduces the
byte modulo 256, so an arbitrary list behaves exactly like a Rust byte
stream.  Decoders return their outcome together with the remaining
stream, including on failure, mirroring the position of the underlying
reader after a failed call (a failed read_exact on an in-memory cursor
consumes everything that was available).  Machine integers are naturals
with explicit reduction modulo 2^64 wherever the Rust u64 arithmetic can
wrap.
-/

/-- Model of a byte stream: a list of naturals, each read modulo 256. -/
abbrev Bytes := List Nat

/-- Decode-level errors of the bitcoin consensus decoders used by the crate:
a short read (I/O error), the NonMinimalVarInt error of VarInt decoding,
and ParseFailed with its message. -/
inductive DErr where
  | shortRead
  | nonMinimalVarInt
  | parseFailed (msg : String)
  deriving DecidableEq

/-- Result of a fallible computation, as in the Rust Result type. -/
inductive Outcome (ε α : Type) where
  | ok (a : α)
  | err (e : ε)
  deriving DecidableEq

/-- Whether an Outcome is the ok case. -/
def Outcome.isOk {ε α : Type} : Outcome ε α → Bool
  | .ok _ => true
  | .err _ => false

/-- Model of ReadExt::read_u8: one byte, or a short read on empty input. -/
def readU8 : Bytes → Outcome DErr Nat × Bytes
  | [] => (.err .shortRead, [])
  | b :: rest => (.ok (b % 256), rest)

/-- Model of Read::read_exact for n bytes: on success the bytes and the rest
of the stream; on failure the whole remaining stream has been consumed. -/
def readExact (n : Nat) (s : Bytes) : Outcome DErr Bytes × Bytes :=
  if n ≤ s.length then (.ok ((s.take n).map (fun b => b % 256)), s.drop n)
  else (.err .shortRead, [])

/-- Value of a little-endian byte sequence. -/
def leVal (bs : Bytes) : Nat := bs.foldr (fun b acc => acc * 256 + b % 256) 0

/-- Model of the little-endian fixed-width integer reads
(read_u16, read_u32, read_u64, and consensus decoding of u16/u64). -/
def readLE (n : Nat) (s : Bytes) : Outcome DErr Nat × Bytes :=
  match readExact n s with
  | (.ok bs, rest) => (.ok (leVal bs), rest)
  | (.err e, rest) => (.err e, rest)

/-- Model of the loop of VarInt::consensus_decode (src/var_int.rs): on each
byte it first rejects an accumulator above u64::MAX >> 7, then shifts the
accumulator by 7 and ors in the low 7 bits; a set continuation bit demands
the value differ from u64::MAX and adds one before continuing. -/
def varIntDecodeLoop : Nat → Bytes → Outcome DErr Nat × Bytes
  | _, [] => (.err .shortRead, [])
  | n, b :: rest =>
    if (2 ^ 64 - 1) >>> 7 < n then (.err .nonMinimalVarInt, rest)
    else if (b % 256) &&& 0x80 ≠ 0 then
      if (n <<< 7) ||| ((b % 256) &&& 0x7f) = 2 ^ 64 - 1 then (.err .nonMinimalVarInt, rest)
      else varIntDecodeLoop (((n <<< 7) ||| ((b % 256) &&& 0x7f)) + 1) rest
    else (.ok ((n <<< 7) ||| ((b % 256) &&& 0x7f)), rest)

/-- Model of VarInt::consensus_decode: the loop started at accumulator 0. -/
def varIntDecode (s : Bytes) : Outcome DErr Nat × Bytes := varIntDecodeLoop 0 s

/-- Model of the loop of VarInt::consensus_encode (src/var_int.rs), producing
the bytes in the order they are pushed (least significant digit first); the
first pushed byte carries no continuation bit, all later ones do. -/
def varIntEncAux (num : Nat) (first : Bool) : List Nat :=
  if h : num ≤ 0x7f then [(num &&& 0x7f) ||| (if first then 0x00 else 0x80)]
  else ((num &&& 0x7f) ||| (if first then 0x00 else 0x80)) ::
    varIntEncAux ((num >>> 7) - 1) false
termination_by num
decreasing_by
  simp only [Nat.shiftRight_eq_div_pow]
  omega

/-- Model of VarInt::consensus_encode: the pushed bytes, reversed. -/
def varIntEncode (n : Nat) : Bytes := (varIntEncAux n true).reverse

/-- Model of CompactSize::consensus_decode (src/compact_size.rs). -/
def compactSizeDecode (s : Bytes) : Outcome DErr Nat × Bytes :=
  match readU8 s with
  | (.err e, rest) => (.err e, rest)
  | (.ok size, rest) =>
    if size < 253 then (.ok size, rest)
    else if size = 253 then readLE 2 rest
    else if size = 254 then readLE 4 rest
    else readLE 8 rest

/-- Modulus of the Rust u64 type. -/
def U64MOD : Nat := 2 ^ 64

/-- Wrapping u64 addition. -/
def wadd (a b : Nat) : Nat := (a + b) % U64MOD

/-- Wrapping u64 multiplication. -/
def wmul (a b : Nat) : Nat := a * b % U64MOD

/-- Wrapping u64 subtraction. -/
def wsub (a b : Nat) : Nat := (a + (U64MOD - b % U64MOD)) % U64MOD

/-- Model of the trailing-decimal-zero stripping loop of Amount::compress
(src/amount.rs).  The loop strips while the value is divisible by 10 and
fewer than 9 digits were stripped; since e increases every iteration, a
fuel of 9 - e bounds it exactly, and the explicit e < 9 test is kept. -/
def stripZerosGo : Nat → Nat → Nat → Nat × Nat
  | 0, n, e => (n, e)
  | fuel + 1, n, e =>
    if n % 10 = 0 ∧ e < 9 then stripZerosGo fuel (n / 10) (e + 1) else (n, e)

/-- Entry point of the stripping loop: e starts at 0, so fuel 9 suffices. -/
def stripTrailingZeros (n : Nat) : Nat × Nat := stripZerosGo 9 n 0

/-- Arithmetic part of Amount::compress after zero stripping, with each u64
operation performed with wrapping semantics: for stripped value n and strip
count e it computes 1 + (n / 10 * 9 + d - 1) * 10 + e with d = n % 10 when
e < 9, and 1 + (n - 1) * 10 + 9 when e = 9. -/
def compressParts (n e : Nat) : Nat :=
  if e < 9 then
    wadd (wadd 1 (wmul (wsub (wadd (wmul (n / 10) 9) (n % 10)) 1) 10)) e
  else
    wadd (wadd 1 (wmul (wsub n 1) 10)) 9

/-- Model of Amount::compress (src/amount.rs): zero maps to zero, any other
value is stripped of trailing decimal zeros and fed to compressParts. -/
def amountCompress (amt : Nat) : Nat :=
  if amt = 0 then 0
  else compressParts (stripTrailingZeros amt).1 (stripTrailingZeros amt).2

/-- Model of the final multiply-back loop of CompressedAmount::decompress:
while e > 0, multiply by 10 (wrapping) and decrement e. -/
def decompressLoop : Nat → Nat → Nat
  | n, 0 => n
  | n, e + 1 => decompressLoop (wmul n 10) e

/-- Dispatch of CompressedAmount::decompress after the initial subtraction:
with x the decremented compressed value, e = x % 10 and x / 10 feed either
the digit-recovering branch (e < 9) or the plain branch (e = 9). -/
def decompDispatch (x : Nat) : Nat :=
  if x % 10 < 9 then
    decompressLoop (wadd (wmul (x / 10 / 9) 10) (wadd (x / 10 % 9) 1)) (x % 10)
  else
    decompressLoop (wadd (x / 10) 1) (x % 10)

/-- Model of CompressedAmount::decompress (src/amount.rs). -/
def amountDecompress (x : Nat) : Nat :=
  if x = 0 then 0 else decompDispatch (wsub x 1)

/-- Model of Amount::consensus_decode: a VarInt followed by decompression
(which never fails). -/
def amountDecode (s : Bytes) : Outcome DErr Nat × Bytes :=
  match varIntDecode s with
  | (.err e, rest) => (.err e, rest)
  | (.ok v, rest) => (.ok (amountDecompress v), rest)

/-- Abstract shape of the script reconstructed by Script::consensus_decode
(src/script.rs).  The concrete script templates and the elliptic-curve
expansion of an uncompressed key are provided by the external bitcoin
library and are represented here by the constructor and its data. -/
inductive ScriptKind where
  | p2pkh (hash : Bytes)
  | p2sh (hash : Bytes)
  | p2pkComp (parity : Nat) (x : Bytes)
  | p2pkUncomp (parity : Nat) (x : Bytes)
  | raw (bytes : Bytes)
  | unspendable
  deriving DecidableEq

/-- Model of Script::consensus_decode (src/script.rs).  The validity test of
a 33-byte public key slice is external elliptic-curve code, abstracted as
the parameter pkValid on the parity byte and the 32-byte x-coordinate. -/
def scriptDecode (pkValid : Nat → Bytes → Bool) (s : Bytes) :
    Outcome DErr ScriptKind × Bytes :=
  match varIntDecode s with
  | (.err e, rest) => (.err e, rest)
  | (.ok size, rest) =>
    if size = 0 then
      match readExact 20 rest with
      | (.ok bs, r2) => (.ok (.p2pkh bs), r2)
      | (.err e, r2) => (.err e, r2)
    else if size = 1 then
      match readExact 20 rest with
      | (.ok bs, r2) => (.ok (.p2sh bs), r2)
      | (.err e, r2) => (.err e, r2)
    else if size = 2 ∨ size = 3 then
      match readExact 32 rest with
      | (.ok bs, r2) => (.ok (.p2pkComp size bs), r2)
      | (.err e, r2) => (.err e, r2)
    else if size = 4 ∨ size = 5 then
      match readExact 32 rest with
      | (.ok bs, r2) =>
        if pkValid (size - 2) bs then (.ok (.p2pkUncomp (size - 2) bs), r2)
        else (.err (.parseFailed "parse public key"), r2)
      | (.err e, r2) => (.err e, r2)
    else
      match readExact (size - 6) rest with
      | (.ok bs, r2) =>
        if 10000 < size - 6 then (.ok .unspendable, r2)
        else (.ok (.raw bs), r2)
      | (.err e, r2) => (.err e, r2)

/-- Model of the Code structure of src/lib.rs: block height and coinbase
flag packed as height * 2 + coinbase. -/
structure CodeM where
  height : Nat
  isCoinbase : Bool
  deriving DecidableEq

/-- Model of Code::consensus_decode (src/lib.rs): a VarInt that must fit in
u32, then height = code >> 1 and coinbase = (code & 1) == 1. -/
def codeDecode (s : Bytes) : Outcome DErr CodeM × Bytes :=
  match varIntDecode s with
  | (.err e, rest) => (.err e, rest)
  | (.ok v, rest) =>
    if v ≤ 2 ^ 32 - 1 then
      (.ok { height := v >>> 1, isCoinbase := v &&& 0x01 == 1 }, rest)
    else (.err (.parseFailed "invalid cast to u32"), rest)

/-- Model of the internal State enum of src/lib.rs. -/
inductive MState where
  | needTxid
  | haveTxid (txid : Bytes) (remaining : Nat)
  | legacy
  deriving DecidableEq

/-- Model of a produced TxOut entry.  The optional address field of the Rust
struct is computed by the external bitcoin address library and never affects
decoding, so it is not part of the model. -/
structure TxOutM where
  amount : Nat
  height : Nat
  isCoinbase : Bool
  txid : Bytes
  vout : Nat
  script : ScriptKind
  deriving DecidableEq

/-- Model of the shared tail of Iterator::next for Dump (src/lib.rs): the
code, amount and script decodes performed after the out point, with the
already-updated state st.  A failure yields no item and leaves the state
as the caller set it. -/
def decodeTail (pkValid : Nat → Bytes → Bool) (txid : Bytes) (vout : Nat)
    (st : MState) (s : Bytes) : Option TxOutM × MState × Bytes :=
  match codeDecode s with
  | (.err _, r1) => (none, st, r1)
  | (.ok c, r1) =>
    match amountDecode r1 with
    | (.err _, r2) => (none, st, r2)
    | (.ok a, r2) =>
      match scriptDecode pkValid r2 with
      | (.err _, r3) => (none, st, r3)
      | (.ok sk, r3) =>
        (some { amount := a, height := c.height, isCoinbase := c.isCoinbase,
                txid := txid, vout := vout, script := sk }, st, r3)

/-- Model of Iterator::next for Dump (src/lib.rs): one pull, producing an
optional item, the next state, and the stream position after the pull. -/
def dumpNext (pkValid : Nat → Bytes → Bool) (st : MState) (s : Bytes) :
    Option TxOutM × MState × Bytes :=
  match st with
  | .haveTxid txid remaining =>
    match compactSizeDecode s with
    | (.err _, r1) => (none, .haveTxid txid remaining, r1)
    | (.ok v, r1) =>
      decodeTail pkValid txid (v % 2 ^ 32)
        (if remaining - 1 = 0 then .needTxid else .haveTxid txid (remaining - 1)) r1
  | .needTxid =>
    match readExact 32 s with
    | (.err _, r1) => (none, .needTxid, r1)
    | (.ok txid, r1) =>
      match compactSizeDecode r1 with
      | (.err _, r2) => (none, .needTxid, r2)
      | (.ok c, r2) =>
        match compactSizeDecode r2 with
        | (.err _, r3) => (none, .needTxid, r3)
        | (.ok v, r3) =>
          decodeTail pkValid txid (v % 2 ^ 32)
            (if 0 < c - 1 then .haveTxid txid (c - 1) else .needTxid) r3
  | .legacy =>
    match readExact 32 s with
    | (.err _, r1) => (none, .legacy, r1)
    | (.ok txid, r1) =>
      match readLE 4 r1 with
      | (.err _, r2) => (none, .legacy, r2)
      | (.ok vout, r2) => decodeTail pkValid txid vout .legacy r2

/-- Sequence of n pulls on the stream, collecting each pull's output. -/
def pullN (pkValid : Nat → Bytes → Bool) :
    Nat → MState → Bytes → List (Option TxOutM) × MState × Bytes
  | 0, st, s => ([], st, s)
  | n + 1, st, s =>
    match dumpNext pkValid st s with
    | (o, st1, s1) =>
      match pullN pkValid n st1 s1 with
      | (outs, st2, s2) => (o :: outs, st2, s2)

/-- The snapshot magic constant of src/lib.rs: the ASCII bytes of the four
characters u, t, x, o followed by 0xff. -/
def SNAPSHOT_MAGIC : Bytes := [117, 116, 120, 111, 255]

/-- Model of the Network configuration enum of src/lib.rs; network
identifiers of the external bitcoin library are abstracted as naturals. -/
inductive NetworkCfg where
  | detect
  | specify (net : Nat)
  deriving DecidableEq

/-- Model of the ComputeAddresses enum of src/lib.rs. -/
inductive ComputeAddresses where
  | no
  | yes (cfg : NetworkCfg)
  deriving DecidableEq

/-- Model of the Dump struct after construction: the resolved address
network, block hash, iterator state, declared set size and the stream
positioned at the first record. -/
structure DumpM where
  addressNetwork : Option Nat
  blockHash : Bytes
  state : MState
  utxoSetSize : Nat
  stream : Bytes
  deriving DecidableEq

/-- Model of the Error enum of src/lib.rs as far as construction can
produce it. -/
inductive DumpError where
  | io
  | consensusDecode (e : DErr)
  | networkDetect
  | networkMismatch (detected specified : Nat)
  | unknownVersion (v : Nat)
  | unknownMagic
  deriving DecidableEq

/-- Shared tail of Dump::from_reader: the 32-byte block hash and the u64
output count, read after layout detection and network resolution. -/
def finishHeader (addressNetwork : Option Nat) (st : MState) (s : Bytes) :
    Outcome DumpError DumpM :=
  match readExact 32 s with
  | (.err e, _) => .err (.consensusDecode e)
  | (.ok bh, r1) =>
    match readLE 8 r1 with
    | (.err e, _) => .err (.consensusDecode e)
    | (.ok count, r2) =>
      .ok { addressNetwork := addressNetwork, blockHash := bh, state := st,
            utxoSetSize := count, stream := r2 }

/-- Model of Dump::from_reader (src/lib.rs).  The mapping from a 4-byte
network magic (as a little-endian value) to a network identifier is the
external conversion of the bitcoin library, abstracted as netOf.  When the
first five bytes differ from SNAPSHOT_MAGIC, the reader is rewound, which
is modelled by reading the block hash from the start of the stream. -/
def fromReader (netOf : Nat → Option Nat) (s : Bytes) (ca : ComputeAddresses) :
    Outcome DumpError DumpM :=
  if s.length < 5 then .err .io
  else if (s.take 5).map (fun b => b % 256) = SNAPSHOT_MAGIC then
    match readLE 2 (s.drop 5) with
    | (.err e, _) => .err (.consensusDecode e)
    | (.ok version, r1) =>
      if version ≠ 2 then .err (.unknownVersion version)
      else
        match readExact 4 r1 with
        | (.err e, _) => .err (.consensusDecode e)
        | (.ok magicBytes, r2) =>
          match netOf (leVal magicBytes) with
          | none => .err .unknownMagic
          | some network =>
            match ca with
            | .no => finishHeader none .needTxid r2
            | .yes .detect => finishHeader (some network) .needTxid r2
            | .yes (.specify specified) =>
              if specified = network then finishHeader (some network) .needTxid r2
              else .err (.networkMismatch network specified)
  else
    match ca with
    | .no => finishHeader none .legacy s
    | .yes (.specify network) => finishHeader (some network) .legacy s
    | .yes .detect => .err .networkDetect

/-- States of the record stream reachable from a freshly constructed dump:
construction initializes the state to needTxid or legacy, and every pull
moves to the state and stream position dumpNext returns. -/
inductive Reachable (pkValid : Nat → Bytes → Bool) : MState → Bytes → Prop where
  | initNeed (s : Bytes) : Reachable pkValid .needTxid s
  | initLegacy (s : Bytes) : Reachable pkValid .legacy s
  | step (st : MState) (s : Bytes) (h : Reachable pkValid st s) :
      Reachable pkValid (dumpNext pkValid st s).2.1 (dumpNext pkValid st s).2.2

/-- Modelled from the spec: section 6 of the specification writes the
five-byte magic token as the four ASCII characters of the quoted string
(u, x, t, o in that order) followed by 0xFF. -/
def specSnapshotMagic : Bytes := [117, 120, 116, 111, 255]

/-- Modelled from the spec: the claimed VarInt decode loop in which the
overflow test of the accumulator against u64::MAX >> 7 is performed only
on reading a byte whose continuation bit is set, and a byte without the
continuation bit always terminates successfully with the accumulated
value. -/
def varIntClaimedLoop : Nat → Bytes → Outcome DErr Nat × Bytes
  | _, [] => (.err .shortRead, [])
  | n, b :: rest =>
    if (b % 256) &&& 0x80 = 0 then (.ok ((n <<< 7) ||| ((b % 256) &&& 0x7f)), rest)
    else if (2 ^ 64 - 1) >>> 7 < n then (.err .nonMinimalVarInt, rest)
    else if (n <<< 7) ||| ((b % 256) &&& 0x7f) = 2 ^ 64 - 1 then
      (.err .nonMinimalVarInt, rest)
    else varIntClaimedLoop (((n <<< 7) ||| ((b % 256) &&& 0x7f)) + 1) rest

/-- Modelled from the spec: the claimed decoder started at accumulator 0. -/
def varIntClaimedDecode (s : Bytes) : Outcome DErr Nat × Bytes :=
  varIntClaimedLoop 0 s

/-- Amended description of the VarInt failure modes: identical to the
claimed loop except that the overflow test of the accumulator against
u64::MAX >> 7 is performed on reading every byte, before its continuation
bit is examined. -/
def varIntSpecLoop : Nat → Bytes → Outcome DErr Nat × Bytes
  | _, [] => (.err .shortRead, [])
  | n, b :: rest =>
    if (2 ^ 64 - 1) >>> 7 < n then (.err .nonMinimalVarInt, rest)
    else if (b % 256) &&& 0x80 = 0 then (.ok ((n <<< 7) ||| ((b % 256) &&& 0x7f)), rest)
    else if (n <<< 7) ||| ((b % 256) &&& 0x7f) = 2 ^ 64 - 1 then
      (.err .nonMinimalVarInt, rest)
    else varIntSpecLoop (((n <<< 7) ||| ((b % 256) &&& 0x7f)) + 1) rest

/-- Amended-spec decoder started at accumulator 0. -/
def varIntSpecDecode (s : Bytes) : Outcome DErr Nat × Bytes := varIntSpecLoop 0 s


/-- Concrete modern-layout stream of two record groups: a group under the
txid of 32 bytes 0xAA whose CompactSize field decodes to 1, followed by a
group under the txid of 32 bytes 0xBB. -/
def twoGroupStream : Bytes :=
  List.replicate 32 170 ++ [1, 0, 0, 0, 6] ++ List.replicate 32 187 ++ [1, 1, 2, 0, 6]

/-- The record produced by the first pull on twoGroupStream. -/
def recA : TxOutM :=
  { amount := 0, height := 0, isCoinbase := false,
    txid := List.replicate 32 170, vout := 0, script := .raw [] }

/-- Concrete legacy-layout stream whose first record fails mid-decode (its
code VarInt encodes 2^32, which does not fit in u32) and whose remaining
bytes form one fully well-formed record. -/
def failThenGoodStream : Bytes :=
  List.replicate 32 1 ++ [0, 0, 0, 0] ++ [142, 254, 254, 255, 0] ++
    List.replicate 32 2 ++ [5, 0, 0, 0] ++ [0, 0, 6]

/-- Concrete modern-layout stream with one group of three outputs under the
txid of 32 bytes 0x07; its first record leaves the state mid-group. -/
def groupStream : Bytes := List.replicate 32 7 ++ [3, 0, 0, 0, 6]

/-- Concrete modern header: magic, version 2, network magic bytes 1 2 3 4,
then a 32-byte block hash and an 8-byte count of zeros. -/
def modernHeader : Bytes := SNAPSHOT_MAGIC ++ [2, 0] ++ [1, 2, 3, 4] ++ List.replicate 40 0

/-! Helper lemmas about the bit operations of the VarInt codec. -/

theorem and_127_eq_mod (x : Nat) : x &&& 127 = x % 128 := by
  have h := Nat.and_pow_two_sub_one_eq_mod x 7
  norm_num at h
  exact h

theorem shiftLeft7_or (a b : Nat) (h : b < 128) : (a <<< 7) ||| b = a * 128 + b := by
  have h2 : b < 2 ^ 7 := by norm_num [h]
  have h3 := (Nat.mul_add_lt_is_or h2 a).symm
  rw [Nat.shiftLeft_eq, mul_comm a (2 ^ 7)]
  rw [h3]

theorem or_zero_eq (a : Nat) : a ||| 0 = a := by simp

theorem or_128_eq_add (m : Nat) (h : m < 128) : m ||| 128 = m + 128 := by
  have h2 : m < 2 ^ 7 := by norm_num [h]
  have h3 := (Nat.mul_add_lt_is_or h2 1).symm
  rw [Nat.lor_comm]
  norm_num at h3
  rw [h3]
  omega

theorem and_128_lt (b : Nat) (h : b < 128) : b &&& 128 = 0 := by
  have ht : b.testBit 7 = false := by
    rw [Nat.testBit_to_div_mod]
    simp only [decide_eq_false_iff_not]
    omega
  have h2 := Nat.and_two_pow b 7
  norm_num [ht] at h2
  exact h2

theorem and_128_ge (b : Nat) (h1 : 128 ≤ b) (h2 : b < 256) : b &&& 128 = 128 := by
  have ht : b.testBit 7 = true := by
    rw [Nat.testBit_to_div_mod]
    simp only [decide_eq_true_eq]
    omega
  have h3 := Nat.and_two_pow b 7
  norm_num [ht] at h3
  exact h3

/-! Step lemmas for the VarInt decode loop on a single in-range byte. -/

theorem decLoop_cons_term (acc m : Nat) (rest : Bytes) (hm : m ≤ 127)
    (hacc : acc ≤ 2 ^ 57 - 1) :
    varIntDecodeLoop acc (m :: rest) = (.ok (acc * 128 + m), rest) := by
  have hmod : m % 256 = m := Nat.mod_eq_of_lt (by omega)
  have hsh : (2 ^ 64 - 1 : Nat) >>> 7 = 2 ^ 57 - 1 := by
    norm_num [Nat.shiftRight_eq_div_pow]
  simp only [varIntDecodeLoop, hmod, hsh]
  rw [if_neg (by omega)]
  rw [if_neg (by simp [and_128_lt m (by omega)])]
  rw [and_127_eq_mod, Nat.mod_eq_of_lt (show m < 128 by omega),
    shiftLeft7_or acc m (by omega)]

theorem decLoop_cons_cont (acc m : Nat) (rest : Bytes) (hm : m ≤ 127)
    (hacc : acc ≤ 2 ^ 57 - 1) (hv : acc * 128 + m ≠ 2 ^ 64 - 1) :
    varIntDecodeLoop acc ((m + 128) :: rest) =
      varIntDecodeLoop (acc * 128 + m + 1) rest := by
  have hmod : (m + 128) % 256 = m + 128 := Nat.mod_eq_of_lt (by omega)
  have hsh : (2 ^ 64 - 1 : Nat) >>> 7 = 2 ^ 57 - 1 := by
    norm_num [Nat.shiftRight_eq_div_pow]
  have hand : (m + 128) &&& 127 = m := by
    rw [and_127_eq_mod]
    omega
  have hval : (acc <<< 7) ||| ((m + 128) &&& 127) = acc * 128 + m := by
    rw [hand, shiftLeft7_or acc m (by omega)]
  simp only [varIntDecodeLoop, hmod, hsh]
  rw [if_neg (by omega)]
  rw [if_pos (by simp [and_128_ge (m + 128) (by omega) (by omega)])]
  rw [hval, if_neg hv]

/-- Arithmetic normal form of one step of the encoder loop: the pushed byte
is the low seven bits plus the continuation bit (128) on all but the first
pushed byte, and the next value is num / 128 - 1. -/
theorem varIntEncAux_eq (num : Nat) (first : Bool) :
    varIntEncAux num first =
      if num ≤ 127 then [num % 128 + (if first then 0 else 128)]
      else (num % 128 + (if first then 0 else 128)) ::
        varIntEncAux (num / 128 - 1) false := by
  rw [varIntEncAux]
  have hbyte : (num &&& 127) ||| (if first then (0 : Nat) else 128) =
      num % 128 + (if first then 0 else 128) := by
    cases first with
    | true => simp [and_127_eq_mod, or_zero_eq]
    | false =>
      simp only [Bool.false_eq_true, if_false]
      rw [and_127_eq_mod]
      exact or_128_eq_add (num % 128) (Nat.mod_lt num (by omega))
  have hsh : num >>> 7 = num / 128 := by
    simp [Nat.shiftRight_eq_div_pow]
  by_cases h : num ≤ 127
  · rw [dif_pos (by norm_num [h] : num ≤ 0x7f), if_pos h, hbyte]
  · rw [dif_neg (by norm_num [h] : ¬num ≤ 0x7f), if_neg h, hbyte, hsh]

theorem decLoop_encAux_false (m : Nat) : ∀ acc rest,
    acc * 128 ^ (varIntEncAux m false).length + m + 1 ≤ 2 ^ 64 - 1 →
    varIntDecodeLoop acc ((varIntEncAux m false).reverse ++ rest) =
      varIntDecodeLoop (acc * 128 ^ (varIntEncAux m false).length + m + 1) rest := by
  induction m using Nat.strong_induction_on with
  | _ m ih =>
    intro acc rest hb
    by_cases h : m ≤ 127
    · rw [varIntEncAux_eq, if_pos h] at hb ⊢
      simp only [List.length_cons, List.length_nil, zero_add, pow_one,
        List.reverse_cons, List.reverse_nil, List.nil_append,
        List.singleton_append, Bool.false_eq_true, if_false] at hb ⊢
      have hmm : m % 128 = m := Nat.mod_eq_of_lt (by omega)
      rw [hmm]
      exact decLoop_cons_cont acc m rest (by omega) (by omega) (by omega)
    · rw [varIntEncAux_eq m false, if_neg h] at hb ⊢
      simp only [List.length_cons, List.reverse_cons] at hb ⊢
      simp only [Bool.false_eq_true, if_false] at hb ⊢
      rw [List.append_assoc, List.singleton_append]
      set k := (varIntEncAux (m / 128 - 1) false).length with hk
      have hsucc : (128 : Nat) ^ (k + 1) = 128 ^ k * 128 := by ring
      rw [hsucc, ← mul_assoc] at hb ⊢
      set p := acc * 128 ^ k with hp
      have hih : p + (m / 128 - 1) + 1 ≤ 2 ^ 64 - 1 := by omega
      rw [ih (m / 128 - 1) (by omega) acc ((m % 128 + 128) :: rest) hih]
      have hstep := decLoop_cons_cont (p + (m / 128 - 1) + 1) (m % 128) rest
        (by omega) (by omega) (by omega)
      rw [hstep]
      congr 1
      omega

theorem decLoop_encode (num : Nat) (acc : Nat) (rest : Bytes)
    (hb : acc * 128 ^ (varIntEncAux num true).length + num ≤ 2 ^ 64 - 1) :
    varIntDecodeLoop acc ((varIntEncAux num true).reverse ++ rest) =
      (.ok (acc * 128 ^ (varIntEncAux num true).length + num), rest) := by
  by_cases h : num ≤ 127
  · rw [varIntEncAux_eq, if_pos h] at hb ⊢
    simp only [List.length_cons, List.length_nil, zero_add, pow_one,
      List.reverse_cons, List.reverse_nil, List.nil_append,
      List.singleton_append, if_true, Nat.add_zero] at hb ⊢
    have hmm : num % 128 = num := Nat.mod_eq_of_lt (by omega)
    rw [hmm]
    exact decLoop_cons_term acc num rest (by omega) (by omega)
  · rw [varIntEncAux_eq num true, if_neg h] at hb ⊢
    simp only [List.length_cons, List.reverse_cons, if_true] at hb ⊢
    rw [List.append_assoc, List.singleton_append]
    set k := (varIntEncAux (num / 128 - 1) false).length with hk
    have hsucc : (128 : Nat) ^ (k + 1) = 128 ^ k * 128 := by ring
    rw [hsucc, ← mul_assoc] at hb ⊢
    set p := acc * 128 ^ k with hp
    have hih : p + (num / 128 - 1) + 1 ≤ 2 ^ 64 - 1 := by omega
    rw [decLoop_encAux_false (num / 128 - 1) acc ((num % 128 + 0) :: rest) hih]
    have hstep := decLoop_cons_term (p + (num / 128 - 1) + 1) (num % 128) rest
      (by omega) (by omega)
    simp only [Nat.add_zero]
    rw [← hk, ← hp, hstep]
    congr 2
    omega

/-- Equivalence of the two presentations of the decode loop: testing the
continuation bit first (as the amended spec wording does) and testing the
overflow condition first (as the code does) produce identical outcomes,
because the overflow test fires on every byte in both. -/
theorem varIntLoop_eq_spec (s : Bytes) : ∀ n, varIntDecodeLoop n s = varIntSpecLoop n s := by
  induction s with
  | nil => intro n; rfl
  | cons b rest ih =>
    intro n
    simp only [varIntDecodeLoop, varIntSpecLoop]
    by_cases h1 : (2 ^ 64 - 1) >>> 7 < n
    · rw [if_pos h1, if_pos h1]
    · rw [if_neg h1, if_neg h1]
      by_cases h2 : (b % 256) &&& 0x80 = 0
      · rw [if_neg (not_not_intro h2), if_pos h2]
      · rw [if_pos h2, if_neg h2]
        by_cases h3 : (n <<< 7) ||| ((b % 256) &&& 0x7f) = 2 ^ 64 - 1
        · rw [if_pos h3, if_pos h3]
        · rw [if_neg h3, if_neg h3]
          exact ih _

/-- C4: for every u64 value, decoding the VarInt encoding returns the value
with nothing left over, and the encoder produces exactly the normative byte
sequences of the specification table. -/
theorem c4_varint_round_trip :
    (∀ n : Nat, n < 2 ^ 64 → varIntDecode (varIntEncode n) = (.ok n, [])) ∧
    varIntEncode 0 = [0x00] ∧
    varIntEncode 127 = [0x7F] ∧
    varIntEncode 128 = [0x80, 0x00] ∧
    varIntEncode 16383 = [0xFE, 0x7F] ∧
    varIntEncode 16384 = [0xFF, 0x00] ∧
    varIntEncode 4294967296 = [0x8E, 0xFE, 0xFE, 0xFF, 0x00] := by
  refine ⟨fun n h => ?_, ?_, ?_, ?_, ?_, ?_, ?_⟩
  · have hmain := decLoop_encode n 0 [] (by simpa using Nat.le_sub_one_of_lt h)
    simpa [varIntDecode, varIntEncode] using hmain
  all_goals simp [varIntEncode, varIntEncAux_eq]

/-- Witness for C4: the round-trip law applied at the concrete value 300. -/
theorem c4_witness : varIntDecode (varIntEncode 300) = (.ok 300, []) :=
  c4_varint_round_trip.1 300 (by norm_num)

/-- C5 counterexample: on the stream of nine 0xFF bytes followed by 0x00,
no read fails, no continuation byte is ever read while the accumulator
exceeds u64::MAX >> 7, and the accumulator never equals u64::MAX with the
continuation bit set, so the claimed description (modelled by
varIntClaimedDecode) succeeds; the code nevertheless fails with
NonMinimalVarInt, because its overflow test also fires on reading the
final byte, whose continuation bit is clear. -/
theorem c5_counterexample :
    varIntDecode [255, 255, 255, 255, 255, 255, 255, 255, 255, 0] =
      (.err .nonMinimalVarInt, []) ∧
    (varIntClaimedDecode [255, 255, 255, 255, 255, 255, 255, 255, 255, 0]).1.isOk
      = true := by
  constructor
  · decide
  · decide

/-- C5 as amended: the failure conditions of VarInt decoding are exactly as
claimed except that the overflow test of the accumulated value against
u64::MAX >> 7 applies on reading every byte, before its continuation bit is
examined; with that amendment the decoder of the code agrees with the
spec-worded decoder on every stream and every starting accumulator,
including the returned accumulated value on success. -/
theorem c5_decode_failure_modes (s : Bytes) : varIntDecode s = varIntSpecDecode s :=
  varIntLoop_eq_spec s 0

/-- Wrapping addition below the modulus is plain addition. -/
theorem wadd_eq (a b : Nat) (h : a + b < 2 ^ 64) : wadd a b = a + b := by
  simp only [wadd, U64MOD]
  omega

/-- Wrapping multiplication below the modulus is plain multiplication. -/
theorem wmul_eq (a b : Nat) (h : a * b < 2 ^ 64) : wmul a b = a * b := by
  simp only [wmul, U64MOD]
  omega

/-- Wrapping decrement of a positive in-range value is plain decrement. -/
theorem wsub_one_eq (a : Nat) (h1 : 1 ≤ a) (h2 : a < 2 ^ 64) : wsub a 1 = a - 1 := by
  simp only [wsub, U64MOD]
  have h3 : (1 : Nat) % 2 ^ 64 = 1 := by norm_num
  rw [h3]
  have h4 : a + (2 ^ 64 - 1) = (a - 1) + 2 ^ 64 := by omega
  rw [h4, Nat.add_mod_right]
  exact Nat.mod_eq_of_lt (by omega)

/-- Postcondition of the zero-stripping loop: it factors its argument as
the stripped value times 10^(digits stripped), the count stays at most 9,
the stripped value is positive, and if fewer than 9 digits were stripped
the stripped value is not divisible by 10. -/
theorem stripZerosGo_spec : ∀ fuel n e, 1 ≤ n → e ≤ 9 → 9 ≤ fuel + e →
    (stripZerosGo fuel n e).1 * 10 ^ ((stripZerosGo fuel n e).2 - e) = n ∧
    e ≤ (stripZerosGo fuel n e).2 ∧ (stripZerosGo fuel n e).2 ≤ 9 ∧
    1 ≤ (stripZerosGo fuel n e).1 ∧
    ((stripZerosGo fuel n e).2 < 9 → (stripZerosGo fuel n e).1 % 10 ≠ 0) := by
  intro fuel
  induction fuel with
  | zero =>
    intro n e h1 h2 h3
    have he : e = 9 := by omega
    subst he
    simp only [stripZerosGo]
    refine ⟨by simp, le_refl 9, by omega, h1, by omega⟩
  | succ fuel ih =>
    intro n e h1 h2 h3
    by_cases hc : n % 10 = 0 ∧ e < 9
    · simp only [stripZerosGo, if_pos hc]
      have hn : 1 ≤ n / 10 := by omega
      obtain ⟨ha, hb, hcn, hd, he⟩ := ih (n / 10) (e + 1) hn (by omega) (by omega)
      refine ⟨?_, by omega, hcn, hd, he⟩
      have hexp : (stripZerosGo fuel (n / 10) (e + 1)).2 - e
          = ((stripZerosGo fuel (n / 10) (e + 1)).2 - (e + 1)) + 1 := by omega
      rw [hexp, pow_succ, ← mul_assoc, ha]
      omega
    · simp only [stripZerosGo, if_neg hc]
      refine ⟨by simp, le_refl e, h2, h1, fun hlt h0 => hc ⟨h0, hlt⟩⟩

/-- The multiply-back loop is exact multiplication by 10^e as long as the
result stays below the modulus. -/
theorem decompressLoop_eq : ∀ e n, n * 10 ^ e < 2 ^ 64 → decompressLoop n e = n * 10 ^ e := by
  intro e
  induction e with
  | zero => intro n h; simp [decompressLoop]
  | succ e ih =>
    intro n h
    simp only [decompressLoop]
    have hten : (10 : Nat) ≤ 10 ^ (e + 1) := by
      calc (10 : Nat) = 10 ^ 1 := by norm_num
        _ ≤ 10 ^ (e + 1) := Nat.pow_le_pow_right (by norm_num) (by omega)
    have h10 : n * 10 < 2 ^ 64 := by
      have hle : n * 10 ≤ n * 10 ^ (e + 1) := Nat.mul_le_mul (le_refl n) hten
      omega
    have heq : n * 10 * 10 ^ e = n * 10 ^ (e + 1) := by ring
    rw [wmul_eq n 10 h10, ih (n * 10) (by rw [heq]; exact h), heq]

/-- Round trip of the amount compressor on the domain where its u64
arithmetic cannot wrap: every value up to floor((2^64 - 1) / 9). -/
theorem amount_round_trip_bounded (n : Nat) (hn : n ≤ 2049638230412172401) :
    amountDecompress (amountCompress n) = n := by
  by_cases h0 : n = 0
  · subst h0
    decide
  · have h1 : 1 ≤ n := by omega
    obtain ⟨hprod, hle, hle9, hm1, hmod⟩ := stripZerosGo_spec 9 n 0 h1 (by omega) (by omega)
    rw [amountCompress, if_neg h0]
    simp only [stripTrailingZeros]
    set m := (stripZerosGo 9 n 0).1 with hm
    set e := (stripZerosGo 9 n 0).2 with he
    have hprod2 : m * 10 ^ e = n := by simpa using hprod
    have hmn : m ≤ n := by
      calc m = m * 1 := (mul_one m).symm
        _ ≤ m * 10 ^ e := Nat.mul_le_mul (le_refl m) (Nat.one_le_pow _ _ (by omega))
        _ = n := hprod2
    by_cases hc : e < 9
    · -- e < 9 branch: digit d in 1..9
      have hd1 : m % 10 ≠ 0 := hmod hc
      have hd : 1 ≤ m % 10 ∧ m % 10 ≤ 9 := by omega
      rw [compressParts, if_pos hc]
      have e1 : wmul (m / 10) 9 = m / 10 * 9 := wmul_eq _ _ (by omega)
      rw [e1]
      have e2 : wadd (m / 10 * 9) (m % 10) = m / 10 * 9 + m % 10 := wadd_eq _ _ (by omega)
      rw [e2]
      have e3 : wsub (m / 10 * 9 + m % 10) 1 = m / 10 * 9 + m % 10 - 1 :=
        wsub_one_eq _ (by omega) (by omega)
      rw [e3]
      have e4 : wmul (m / 10 * 9 + m % 10 - 1) 10 = (m / 10 * 9 + m % 10 - 1) * 10 :=
        wmul_eq _ _ (by omega)
      rw [e4]
      have e5 : wadd 1 ((m / 10 * 9 + m % 10 - 1) * 10) =
          1 + (m / 10 * 9 + m % 10 - 1) * 10 := wadd_eq _ _ (by omega)
      rw [e5]
      have e6 : wadd (1 + (m / 10 * 9 + m % 10 - 1) * 10) e =
          1 + (m / 10 * 9 + m % 10 - 1) * 10 + e := wadd_eq _ _ (by omega)
      rw [e6]
      -- decompress
      rw [amountDecompress, if_neg (by omega)]
      have e7 : wsub (1 + (m / 10 * 9 + m % 10 - 1) * 10 + e) 1 =
          (m / 10 * 9 + m % 10 - 1) * 10 + e := by
        rw [wsub_one_eq _ (by omega) (by omega)]
        omega
      rw [e7]
      rw [decompDispatch]
      have hx1 : ((m / 10 * 9 + m % 10 - 1) * 10 + e) % 10 = e := by omega
      have hx2 : ((m / 10 * 9 + m % 10 - 1) * 10 + e) / 10 = m / 10 * 9 + m % 10 - 1 := by
        omega
      rw [if_pos (by omega : ((m / 10 * 9 + m % 10 - 1) * 10 + e) % 10 < 9)]
      rw [hx1, hx2]
      have hx3 : (m / 10 * 9 + m % 10 - 1) % 9 = m % 10 - 1 := by omega
      have hx4 : (m / 10 * 9 + m % 10 - 1) / 9 = m / 10 := by omega
      rw [hx3, hx4]
      have e8 : wadd (m % 10 - 1) 1 = m % 10 := by
        rw [wadd_eq _ _ (by omega)]
        omega
      rw [e8]
      have e9 : wmul (m / 10) 10 = m / 10 * 10 := wmul_eq _ _ (by omega)
      rw [e9]
      have e10 : wadd (m / 10 * 10) (m % 10) = m := by
        rw [wadd_eq _ _ (by omega)]
        omega
      rw [e10]
      rw [decompressLoop_eq e m (by omega)]
      exact hprod2
    · -- e = 9 branch
      have he9 : e = 9 := by omega
      rw [he9] at hprod2
      norm_num at hprod2
      have hmsmall : m ≤ 2049638231 := by omega
      rw [compressParts, if_neg hc]
      have e1 : wsub m 1 = m - 1 := wsub_one_eq _ hm1 (by omega)
      rw [e1]
      have e2 : wmul (m - 1) 10 = (m - 1) * 10 := wmul_eq _ _ (by omega)
      rw [e2]
      have e3 : wadd 1 ((m - 1) * 10) = 1 + (m - 1) * 10 := wadd_eq _ _ (by omega)
      rw [e3]
      have e4 : wadd (1 + (m - 1) * 10) 9 = 10 * m := by
        rw [wadd_eq _ _ (by omega)]
        omega
      rw [e4]
      rw [amountDecompress, if_neg (by omega)]
      have e5 : wsub (10 * m) 1 = 10 * m - 1 := wsub_one_eq _ (by omega) (by omega)
      rw [e5]
      rw [decompDispatch]
      have hx1 : (10 * m - 1) % 10 = 9 := by omega
      rw [if_neg (by omega : ¬(10 * m - 1) % 10 < 9)]
      rw [hx1]
      have hx2 : (10 * m - 1) / 10 = m - 1 := by omega
      rw [hx2]
      have e6 : wadd (m - 1) 1 = m := by
        rw [wadd_eq _ _ (by omega)]
        omega
      rw [e6]
      rw [decompressLoop_eq 9 m (by norm_num; omega)]
      norm_num
      exact hprod2

/-- C6 counterexample: the compression arithmetic wraps around u64 on the
input u64::MAX, so the claimed round trip over the whole unsigned 64-bit
domain fails there. -/
theorem c6_counterexample :
    amountDecompress (amountCompress 18446744073709551615) = 2049638230412172324 ∧
    (2049638230412172324 : Nat) ≠ 18446744073709551615 := by
  constructor
  · decide
  · decide

/-- C6 as amended: amount compression is lossless on every satoshi count up
to floor((2^64 - 1) / 9) = 2049638230412172401 (a superset of all valid
bitcoin amounts), rather than on the whole u64 domain; zero compresses to
zero, the normative vectors round-trip, and the compressed value 0x77
decompresses to exactly 1300000000. -/
theorem c6_amount_round_trip :
    (∀ n : Nat, n ≤ 2049638230412172401 → amountDecompress (amountCompress n) = n) ∧
    amountCompress 0 = 0 ∧
    amountDecompress (amountCompress 1) = 1 ∧
    amountDecompress (amountCompress 123456789) = 123456789 ∧
    amountDecompress (amountCompress 625000000) = 625000000 ∧
    amountDecompress (amountCompress 1250000000) = 1250000000 ∧
    amountDecompress (amountCompress 5000000000) = 5000000000 ∧
    amountDecompress (amountCompress 2099999997690000) = 2099999997690000 ∧
    amountDecompress 0x77 = 1300000000 := by
  refine ⟨amount_round_trip_bounded, by decide,
    amount_round_trip_bounded 1 (by norm_num),
    amount_round_trip_bounded 123456789 (by norm_num),
    amount_round_trip_bounded 625000000 (by norm_num),
    amount_round_trip_bounded 1250000000 (by norm_num),
    amount_round_trip_bounded 5000000000 (by norm_num),
    amount_round_trip_bounded 2099999997690000 (by norm_num),
    by decide⟩

/-- Witness for C6: the amended round trip applied at the concrete value
123456789. -/
theorem c6_witness : amountDecompress (amountCompress 123456789) = 123456789 :=
  c6_amount_round_trip.1 123456789 (by norm_num)

/-- C7: whenever the script selector VarInt decodes to a value of at least
6 and the declared raw length (selector minus 6) is available on the
stream, decoding consumes exactly that many bytes; if the declared length
exceeds 10000 the result is the canonical unspendable marker script,
otherwise the consumed bytes themselves become the script. -/
theorem c7_raw_script_guard (pk : Nat → Bytes → Bool) (s s1 : Bytes) (v : Nat)
    (hv : varIntDecode s = (.ok v, s1)) (h6 : 6 ≤ v) (hlen : v - 6 ≤ s1.length) :
    scriptDecode pk s =
      (.ok (if 10000 < v - 6 then .unspendable
            else .raw ((s1.take (v - 6)).map (fun b => b % 256))), s1.drop (v - 6)) := by
  simp only [scriptDecode, hv]
  rw [if_neg (by omega), if_neg (by omega), if_neg (by omega), if_neg (by omega)]
  rw [readExact, if_pos hlen]
  by_cases hg : 10000 < v - 6
  · simp [hg]
  · simp [hg]

/-- Witness for C7: the raw-script arm applied to the selector byte 6 with
an empty payload. -/
theorem c7_witness :
    scriptDecode (fun _ _ => false) [6] = (.ok (.raw []), []) := by
  have h := c7_raw_script_guard (fun _ _ => false) [6] [] 6 (by decide) (by norm_num)
    (by simp)
  simpa using h

/-- C10: decoding the shared height/coinbase code fails with ParseFailed
exactly when the underlying VarInt value does not fit in 32 bits; every
successfully decoded code comes from a VarInt value below 2^32 with
height = value >> 1 and coinbase = (value & 1 = 1); and a code decode
failure makes the shared record tail produce no item, ending that pull. -/
theorem c10_code_width_limit (s : Bytes) :
    (∀ v r, varIntDecode s = (.ok v, r) → 2 ^ 32 ≤ v →
      codeDecode s = (.err (.parseFailed "invalid cast to u32"), r)) ∧
    (∀ c r, codeDecode s = (.ok c, r) →
      ∃ v, varIntDecode s = (.ok v, r) ∧ v < 2 ^ 32 ∧
        c.height = v >>> 1 ∧ (c.isCoinbase = true ↔ v &&& 1 = 1)) ∧
    (∀ pk t vo st e r, codeDecode s = (.err e, r) →
      (decodeTail pk t vo st s).1 = none) := by
  refine ⟨?_, ?_, ?_⟩
  · intro v r hv hge
    simp only [codeDecode, hv]
    rw [if_neg (by omega)]
  · intro c r hc
    rcases hvd : varIntDecode s with ⟨o, r0⟩
    cases o with
    | err e =>
      simp only [codeDecode, hvd] at hc
      injection hc with h1 h2
      exact Outcome.noConfusion h1
    | ok v =>
      simp only [codeDecode, hvd] at hc
      by_cases hle : v ≤ 2 ^ 32 - 1
      · rw [if_pos hle] at hc
        injection hc with h1 h2
        injection h1 with h3
        subst h2
        refine ⟨v, rfl, by omega, ?_, ?_⟩
        · rw [← h3]
        · rw [← h3]
          simp [beq_iff_eq]
      · rw [if_neg hle] at hc
        injection hc with h1 h2
        exact Outcome.noConfusion h1
  · intro pk t vo st e r hc
    simp only [decodeTail, hc]

/-- Witness for C10: the width-limit failure applied to the five-byte
VarInt encoding of 2^32, one past the largest accepted code value. -/
theorem c10_witness :
    codeDecode [142, 254, 254, 255, 0] =
      (.err (.parseFailed "invalid cast to u32"), []) :=
  (c10_code_width_limit [142, 254, 254, 255, 0]).1 4294967296 [] (by decide)
    (by norm_num)

/-- The shared record tail never changes the state it is given. -/
theorem decodeTail_state (pk : Nat → Bytes → Bool) (t : Bytes) (vo : Nat)
    (st : MState) (s : Bytes) : (decodeTail pk t vo st s).2.1 = st := by
  rcases h1 : codeDecode s with ⟨o1, r1⟩
  cases o1 with
  | err e => simp only [decodeTail, h1]
  | ok c =>
    rcases h2 : amountDecode r1 with ⟨o2, r2⟩
    cases o2 with
    | err e => simp only [decodeTail, h1, h2]
    | ok a =>
      rcases h3 : scriptDecode pk r2 with ⟨o3, r3⟩
      cases o3 with
      | err e => simp only [decodeTail, h1, h2, h3]
      | ok sk => simp only [decodeTail, h1, h2, h3]

/-- Any record produced by the shared tail carries the txid it was given. -/
theorem decodeTail_txid (pk : Nat → Bytes → Bool) (t : Bytes) (vo : Nat)
    (st : MState) (s : Bytes) :
    ∀ x, (decodeTail pk t vo st s).1 = some x → x.txid = t := by
  intro x hx
  rcases h1 : codeDecode s with ⟨o1, r1⟩
  cases o1 with
  | err e =>
    simp only [decodeTail, h1] at hx
    exact Option.noConfusion hx
  | ok c =>
    rcases h2 : amountDecode r1 with ⟨o2, r2⟩
    cases o2 with
    | err e =>
      simp only [decodeTail, h1, h2] at hx
      exact Option.noConfusion hx
    | ok a =>
      rcases h3 : scriptDecode pk r2 with ⟨o3, r3⟩
      cases o3 with
      | err e =>
        simp only [decodeTail, h1, h2, h3] at hx
        exact Option.noConfusion hx
      | ok sk =>
        simp only [decodeTail, h1, h2, h3] at hx
        injection hx with hx2
        rw [← hx2]

/-- C3 as amended: a pull on an exhausted stream produces no record and
changes nothing, so once the input is exhausted every subsequent pull also
produces no record; this is the only sense in which a failed pull is
permanent (the counterexample shows a mid-stream decode failure does not
permanently end the sequence). -/
theorem c3_exhaustion_permanent (pk : Nat → Bytes → Bool) (st : MState) :
    dumpNext pk st [] = (none, st, []) ∧
    ∀ n, pullN pk n st [] = (List.replicate n none, st, []) := by
  have hone : dumpNext pk st [] = (none, st, []) := by
    cases st <;> rfl
  refine ⟨hone, ?_⟩
  intro n
  induction n with
  | zero => rfl
  | succ n ih => simp only [pullN, hone, ih, List.replicate]

/-- One pull preserves the invariant that a haveTxid state carries a
remaining count of at least 1, whether or not the pull produced a record. -/
theorem dumpNext_state_inv (pk : Nat → Bytes → Bool) (st : MState) (s : Bytes)
    (h : ∀ t r, st = .haveTxid t r → 1 ≤ r) :
    ∀ t r, (dumpNext pk st s).2.1 = .haveTxid t r → 1 ≤ r := by
  intro t r hst
  cases st with
  | needTxid =>
    rcases h1 : readExact 32 s with ⟨o1, r1⟩
    cases o1 with
    | err e =>
      simp only [dumpNext, h1] at hst
      exact MState.noConfusion hst
    | ok txid =>
      rcases h2 : compactSizeDecode r1 with ⟨o2, r2⟩
      cases o2 with
      | err e =>
        simp only [dumpNext, h1, h2] at hst
        exact MState.noConfusion hst
      | ok c =>
        rcases h3 : compactSizeDecode r2 with ⟨o3, r3⟩
        cases o3 with
        | err e =>
          simp only [dumpNext, h1, h2, h3] at hst
          exact MState.noConfusion hst
        | ok v =>
          simp only [dumpNext, h1, h2, h3, decodeTail_state] at hst
          by_cases hpos : 0 < c - 1
          · rw [if_pos hpos] at hst
            injection hst with ha hb
            omega
          · rw [if_neg hpos] at hst
            exact MState.noConfusion hst
  | haveTxid txid rem =>
    have hrem : 1 ≤ rem := h txid rem rfl
    rcases h1 : compactSizeDecode s with ⟨o1, r1⟩
    cases o1 with
    | err e =>
      simp only [dumpNext, h1] at hst
      injection hst with ha hb
      omega
    | ok v =>
      simp only [dumpNext, h1, decodeTail_state] at hst
      by_cases hz : rem - 1 = 0
      · rw [if_pos hz] at hst
        exact MState.noConfusion hst
      · rw [if_neg hz] at hst
        injection hst with ha hb
        omega
  | legacy =>
    rcases h1 : readExact 32 s with ⟨o1, r1⟩
    cases o1 with
    | err e =>
      simp only [dumpNext, h1] at hst
      exact MState.noConfusion hst
    | ok txid =>
      rcases h2 : readLE 4 r1 with ⟨o2, r2⟩
      cases o2 with
      | err e =>
        simp only [dumpNext, h1, h2] at hst
        exact MState.noConfusion hst
      | ok vout =>
        simp only [dumpNext, h1, h2, decodeTail_state] at hst
        exact MState.noConfusion hst

/-- C9: on every reachable state of the record stream, a haveTxid state is
only ever entered with remaining count at least 1, and a successful pull
from a haveTxid state moves back to needTxid exactly when the decremented
count reaches 0, that is, exactly when the count was 1. -/
theorem c9_state_invariant (pk : Nat → Bytes → Bool) (st : MState) (s : Bytes)
    (hr : Reachable pk st s) :
    (∀ t r, st = .haveTxid t r → 1 ≤ r) ∧
    (∀ t r out st2 s2, st = .haveTxid t r →
      dumpNext pk st s = (some out, st2, s2) → (st2 = .needTxid ↔ r = 1)) := by
  have hinv : ∀ t r, st = .haveTxid t r → 1 ≤ r := by
    induction hr with
    | initNeed s => intro t r h; exact MState.noConfusion h
    | initLegacy s => intro t r h; exact MState.noConfusion h
    | step st s h ih => exact dumpNext_state_inv pk st s ih
  refine ⟨hinv, ?_⟩
  intro t r out st2 s2 hst hnext
  subst hst
  have h1r : 1 ≤ r := hinv t r rfl
  rcases h1 : compactSizeDecode s with ⟨o1, r1⟩
  cases o1 with
  | err e =>
    simp only [dumpNext, h1] at hnext
    injection hnext with ha hb
    exact Option.noConfusion ha
  | ok v =>
    simp only [dumpNext, h1] at hnext
    have hst2 : ((decodeTail pk t (v % 2 ^ 32)
        (if r - 1 = 0 then MState.needTxid else MState.haveTxid t (r - 1)) r1).2).1 =
        (if r - 1 = 0 then MState.needTxid else MState.haveTxid t (r - 1)) :=
      decodeTail_state pk t (v % 2 ^ 32) _ r1
    rw [hnext] at hst2
    have hst3 : st2 = (if r - 1 = 0 then MState.needTxid else MState.haveTxid t (r - 1)) :=
      hst2
    by_cases hz : r - 1 = 0
    · rw [if_pos hz] at hst3
      rw [hst3]
      exact ⟨fun _ => by omega, fun _ => rfl⟩
    · rw [if_neg hz] at hst3
      rw [hst3]
      constructor
      · intro hcon
        exact MState.noConfusion hcon
      · intro hone
        omega

/-- Pulling n times collects exactly n outputs. -/
theorem pullN_length (pk : Nat → Bytes → Bool) :
    ∀ n st s, (pullN pk n st s).1.length = n := by
  intro n
  induction n with
  | zero => intro st s; rfl
  | succ n ih =>
    intro st s
    rcases hd : dumpNext pk st s with ⟨o, st1, s1⟩
    rcases hp : pullN pk n st1 s1 with ⟨outs, st2, s2⟩
    simp only [pullN, hd, hp, List.length_cons]
    have := ih st1 s1
    rw [hp] at this
    simp only [List.length] at this ⊢
    omega

/-- Mid-group phase: from a haveTxid state with remaining count r at least
1, if r pulls all produce records then each record carries the held txid
and the state after the r-th pull is needTxid. -/
theorem haveTxid_phase (pk : Nat → Bytes → Bool) :
    ∀ r t s outs st2 s2, 1 ≤ r →
      pullN pk r (.haveTxid t r) s = (outs, st2, s2) →
      outs.all Option.isSome = true →
      (∀ o ∈ outs, ∀ x, o = some x → x.txid = t) ∧ st2 = .needTxid := by
  intro r
  induction r with
  | zero => intro t s outs st2 s2 h1; omega
  | succ r ih =>
    intro t s outs st2 s2 h1 hpull hall
    rcases hd : dumpNext pk (.haveTxid t (r + 1)) s with ⟨o, st1, s1⟩
    rcases hp : pullN pk r st1 s1 with ⟨outs2, st3, s3⟩
    simp only [pullN, hd, hp] at hpull
    injection hpull with ho hrest
    injection hrest with hst hs
    subst ho
    subst hst
    subst hs
    simp only [List.all_cons, Bool.and_eq_true] at hall
    obtain ⟨hosome, halltail⟩ := hall
    obtain ⟨x, hox⟩ : ∃ x, o = some x := by
      cases o with
      | none => simp [Option.isSome] at hosome
      | some x => exact ⟨x, rfl⟩
    subst hox
    rcases hcs : compactSizeDecode s with ⟨oc, rc⟩
    cases oc with
    | err e =>
      simp only [dumpNext, hcs] at hd
      injection hd with hdo hdrest
      exact Option.noConfusion hdo
    | ok v =>
      simp only [dumpNext, hcs] at hd
      have hsucc : r + 1 - 1 = r := by omega
      rw [hsucc] at hd
      have hst1 : st1 = (if r = 0 then MState.needTxid else MState.haveTxid t r) := by
        have hoo := decodeTail_state pk t (v % 2 ^ 32)
          (if r = 0 then MState.needTxid else MState.haveTxid t r) rc
        rw [hd] at hoo
        exact hoo
      have htx : x.txid = t := by
        have hoo := decodeTail_txid pk t (v % 2 ^ 32)
          (if r = 0 then MState.needTxid else MState.haveTxid t r) rc x
        rw [hd] at hoo
        exact hoo rfl
      by_cases hz : r = 0
      · subst hz
        rw [if_pos rfl] at hst1
        have hp0 : pullN pk 0 st1 s1 = ([], st1, s1) := rfl
        rw [hp0] at hp
        injection hp with ho2 hrest2
        injection hrest2 with hst2 hs2
        subst ho2
        subst hst2
        refine ⟨?_, hst1⟩
        intro o ho x2 hx2
        rcases List.mem_singleton.mp ho with rfl
        injection hx2 with hxx
        rw [← hxx]
        exact htx
      · rw [if_neg hz] at hst1
        subst hst1
        obtain ⟨htail, hst3⟩ := ih t s1 outs2 st3 s3 (by omega) hp halltail
        refine ⟨?_, hst3⟩
        intro o ho x2 hx2
        rcases List.mem_cons.mp ho with rfl | hmem
        · injection hx2 with hxx
          rw [← hxx]
          exact htx
        · exact htail o hmem x2 hx2

/-- C2 as amended: at a needTxid state, when the 32-byte txid and the
group's CompactSize value c (with c at least 1; the code treats a declared
0 like 1) decode successfully and c pulls all produce records, exactly c
records are produced, every one carries that txid, and the state after the
c-th pull is back at needTxid, ready to read the next txid.  The on-disk
CompactSize is thus the number of outputs in the group itself, not that
number minus one. -/
theorem c2_group_record_count (pk : Nat → Bytes → Bool) (s r1 r2 : Bytes)
    (t : Bytes) (c : Nat) (outs : List (Option TxOutM)) (st2 : MState) (s2 : Bytes)
    (h1 : readExact 32 s = (.ok t, r1))
    (h2 : compactSizeDecode r1 = (.ok c, r2))
    (hc : 1 ≤ c)
    (hpull : pullN pk c .needTxid s = (outs, st2, s2))
    (hall : outs.all Option.isSome = true) :
    outs.length = c ∧ (∀ o ∈ outs, ∀ x, o = some x → x.txid = t) ∧
    st2 = .needTxid := by
  have hlen : outs.length = c := by
    have hh := pullN_length pk c .needTxid s
    rw [hpull] at hh
    exact hh
  refine ⟨hlen, ?_⟩
  obtain ⟨cc, rfl⟩ : ∃ cc, c = cc + 1 := ⟨c - 1, by omega⟩
  rcases hd : dumpNext pk .needTxid s with ⟨o, st1, s1⟩
  rcases hp : pullN pk cc st1 s1 with ⟨outs2, st3, s3⟩
  simp only [pullN, hd, hp] at hpull
  injection hpull with ho hrest
  injection hrest with hst hs
  subst ho
  subst hst
  subst hs
  simp only [List.all_cons, Bool.and_eq_true] at hall
  obtain ⟨hosome, halltail⟩ := hall
  obtain ⟨x, rfl⟩ : ∃ x, o = some x := by
    cases o with
    | none => simp [Option.isSome] at hosome
    | some x => exact ⟨x, rfl⟩
  rcases hv : compactSizeDecode r2 with ⟨ov, r3⟩
  cases ov with
  | err e =>
    simp only [dumpNext, h1, h2, hv] at hd
    injection hd with hdo
    exact Option.noConfusion hdo
  | ok v =>
    simp only [dumpNext, h1, h2, hv] at hd
    have hcc : cc + 1 - 1 = cc := by omega
    rw [hcc] at hd
    have hst1 : st1 = (if 0 < cc then MState.haveTxid t cc else MState.needTxid) := by
      have hoo := decodeTail_state pk t (v % 2 ^ 32)
        (if 0 < cc then MState.haveTxid t cc else MState.needTxid) r3
      rw [hd] at hoo
      exact hoo
    have htx : x.txid = t := by
      have hoo := decodeTail_txid pk t (v % 2 ^ 32)
        (if 0 < cc then MState.haveTxid t cc else MState.needTxid) r3 x
      rw [hd] at hoo
      exact hoo rfl
    by_cases hz : 0 < cc
    · rw [if_pos hz] at hst1
      subst hst1
      obtain ⟨htail, hst3⟩ := haveTxid_phase pk cc t s1 outs2 st3 s3 (by omega) hp halltail
      refine ⟨?_, hst3⟩
      intro o ho x2 hx2
      rcases List.mem_cons.mp ho with rfl | hmem
      · injection hx2 with hxx
        rw [← hxx]
        exact htx
      · exact htail o hmem x2 hx2
    · have hcc0 : cc = 0 := by omega
      subst hcc0
      rw [if_neg hz] at hst1
      have hp0 : pullN pk 0 st1 s1 = ([], st1, s1) := rfl
      rw [hp0] at hp
      injection hp with ho2 hrest2
      injection hrest2 with hst2 hs2
      subst ho2
      subst hst2
      refine ⟨?_, hst1⟩
      intro o ho x2 hx2
      rcases List.mem_singleton.mp ho with rfl
      injection hx2 with hxx
      rw [← hxx]
      exact htx

/-- Unfolding of the little-endian value of a cons. -/
theorem leVal_cons (b : Nat) (t : Bytes) : leVal (b :: t) = leVal t * 256 + b % 256 := rfl

/-- Reducing each byte modulo 256 does not change the little-endian value. -/
theorem leVal_map_mod (bs : Bytes) : leVal (bs.map (fun b => b % 256)) = leVal bs := by
  induction bs with
  | nil => rfl
  | cons b t ih =>
    simp only [List.map_cons, leVal_cons, ih]
    omega

/-- A read of n bytes succeeds exactly on the first n bytes when the stream
is long enough. -/
theorem readExact_ok (n : Nat) (s : Bytes) (h : n ≤ s.length) :
    readExact n s = (.ok ((s.take n).map (fun b => b % 256)), s.drop n) := by
  rw [readExact, if_pos h]

/-- A little-endian read of n bytes succeeds with their value when the
stream is long enough. -/
theorem readLE_ok (n : Nat) (s : Bytes) (h : n ≤ s.length) :
    readLE n s = (.ok (leVal (s.take n)), s.drop n) := by
  simp only [readLE, readExact_ok n s h, leVal_map_mod]

/-- The header tail succeeds on any stream of at least 40 bytes, reading
the 32-byte block hash and the 8-byte little-endian output count. -/
theorem finishHeader_ok (an : Option Nat) (st : MState) (s : Bytes)
    (h : 40 ≤ s.length) :
    finishHeader an st s =
      .ok { addressNetwork := an, blockHash := (s.take 32).map (fun b => b % 256),
            state := st, utxoSetSize := leVal ((s.drop 32).take 8),
            stream := (s.drop 32).drop 8 } := by
  have h32 : 32 ≤ s.length := by omega
  have h8 : 8 ≤ (s.drop 32).length := by
    simp only [List.length_drop]
    omega
  simp only [finishHeader, readExact_ok 32 s h32, readLE_ok 8 (s.drop 32) h8]

/-- When the first five bytes differ from the snapshot magic, construction
rewinds and proceeds on the legacy path, whose outcome depends only on the
address configuration. -/
theorem fromReader_legacy (f : Nat → Option Nat) (s : Bytes) (ca : ComputeAddresses)
    (hm : (s.take 5).map (fun b => b % 256) ≠ SNAPSHOT_MAGIC) (hl : 5 ≤ s.length) :
    fromReader f s ca =
      match ca with
      | .no => finishHeader none .legacy s
      | .yes (.specify network) => finishHeader (some network) .legacy s
      | .yes .detect => .err .networkDetect := by
  rw [fromReader.eq_def, if_neg (by omega), if_neg hm]

/-- When the first five bytes equal the snapshot magic, the version is 2
and the network magic is recognized, construction proceeds on the modern
path, whose outcome depends only on the address configuration. -/
theorem fromReader_modern (f : Nat → Option Nat) (s : Bytes) (ca : ComputeAddresses)
    (net : Nat)
    (hm : (s.take 5).map (fun b => b % 256) = SNAPSHOT_MAGIC) (hl : 11 ≤ s.length)
    (hver : leVal ((s.drop 5).take 2) = 2)
    (hnet : f (leVal ((s.drop 7).take 4)) = some net) :
    fromReader f s ca =
      match ca with
      | .no => finishHeader none .needTxid (s.drop 11)
      | .yes .detect => finishHeader (some net) .needTxid (s.drop 11)
      | .yes (.specify specified) =>
        if specified = net then finishHeader (some net) .needTxid (s.drop 11)
        else .err (.networkMismatch net specified) := by
  have h2 : 2 ≤ (s.drop 5).length := by
    simp only [List.length_drop]
    omega
  have hd7 : (s.drop 5).drop 2 = s.drop 7 := by
    rw [List.drop_drop]
  have h4 : 4 ≤ (s.drop 7).length := by
    simp only [List.length_drop]
    omega
  have hd11 : (s.drop 7).drop 4 = s.drop 11 := by
    rw [List.drop_drop]
  rw [fromReader.eq_def, if_neg (by omega), if_pos hm, readLE_ok 2 (s.drop 5) h2]
  simp only [hver, hd7]
  rw [if_neg (by norm_num)]
  rw [readExact_ok 4 (s.drop 7) h4]
  simp only [leVal_map_mod, hnet, hd11]

/-- C1 as amended: the five-byte magic token of the code is the ASCII
bytes of u, t, x, o followed by 0xFF (not u, x, t, o as the spec writes
it).  A file whose first five bytes equal this token is parsed as the
modern layout (header fields read after the eleven-byte preamble), and
every file whose first five bytes differ is treated as legacy, rewinding
to the start: its block hash is read from the very first byte. -/
theorem c1_magic_layout_detection (f : Nat → Option Nat) (s : Bytes) :
    ((s.take 5).map (fun b => b % 256) = SNAPSHOT_MAGIC →
      51 ≤ s.length →
      leVal ((s.drop 5).take 2) = 2 →
      ∀ net, f (leVal ((s.drop 7).take 4)) = some net →
      fromReader f s .no =
        .ok { addressNetwork := none,
              blockHash := ((s.drop 11).take 32).map (fun b => b % 256),
              state := .needTxid,
              utxoSetSize := leVal (((s.drop 11).drop 32).take 8),
              stream := ((s.drop 11).drop 32).drop 8 }) ∧
    ((s.take 5).map (fun b => b % 256) ≠ SNAPSHOT_MAGIC →
      40 ≤ s.length →
      fromReader f s .no =
        .ok { addressNetwork := none,
              blockHash := (s.take 32).map (fun b => b % 256),
              state := .legacy,
              utxoSetSize := leVal ((s.drop 32).take 8),
              stream := (s.drop 32).drop 8 }) := by
  constructor
  · intro hm hl hver net hnet
    have hmod : fromReader f s .no = finishHeader none .needTxid (s.drop 11) :=
      fromReader_modern f s .no net hm (by omega) hver hnet
    rw [hmod]
    exact finishHeader_ok none .needTxid (s.drop 11)
      (by simp only [List.length_drop]; omega)
  · intro hm hl
    have hleg : fromReader f s .no = finishHeader none .legacy s :=
      fromReader_legacy f s .no hm (by omega)
    rw [hleg]
    exact finishHeader_ok none .legacy s hl

/-- C8: address-network resolution at construction.  On a modern file,
requesting no computation resolves to no network, auto-detection resolves
to the network mapped from the embedded magic, a matching explicit network
is accepted, and a differing explicit network fails with NetworkMismatch
carrying the detected and the specified network.  On a legacy file,
auto-detection fails with NetworkDetect, an explicit network is accepted
as-is, and no computation resolves to no network.  Each failure is a
construction failure, so it occurs before any record can be produced. -/
theorem c8_network_resolution (f : Nat → Option Nat) (s : Bytes) (net spec : Nat) :
    ((s.take 5).map (fun b => b % 256) = SNAPSHOT_MAGIC →
     51 ≤ s.length →
     leVal ((s.drop 5).take 2) = 2 →
     f (leVal ((s.drop 7).take 4)) = some net →
       (∀ d, fromReader f s .no = .ok d → d.addressNetwork = none) ∧
       (fromReader f s .no).isOk = true ∧
       (∀ d, fromReader f s (.yes .detect) = .ok d → d.addressNetwork = some net) ∧
       (fromReader f s (.yes .detect)).isOk = true ∧
       (∀ d, fromReader f s (.yes (.specify net)) = .ok d →
         d.addressNetwork = some net) ∧
       (fromReader f s (.yes (.specify net))).isOk = true ∧
       (spec ≠ net →
         fromReader f s (.yes (.specify spec)) = .err (.networkMismatch net spec))) ∧
    ((s.take 5).map (fun b => b % 256) ≠ SNAPSHOT_MAGIC →
     5 ≤ s.length →
       fromReader f s (.yes .detect) = .err .networkDetect ∧
       (40 ≤ s.length →
         (∀ d, fromReader f s .no = .ok d → d.addressNetwork = none) ∧
         (fromReader f s .no).isOk = true ∧
         (∀ d, fromReader f s (.yes (.specify spec)) = .ok d →
           d.addressNetwork = some spec) ∧
         (fromReader f s (.yes (.specify spec))).isOk = true)) := by
  constructor
  · intro hm hl hver hnet
    have h40 : 40 ≤ (s.drop 11).length := by
      simp only [List.length_drop]
      omega
    have hno : fromReader f s .no = finishHeader none .needTxid (s.drop 11) :=
      fromReader_modern f s .no net hm (by omega) hver hnet
    have hdet : fromReader f s (.yes .detect) =
        finishHeader (some net) .needTxid (s.drop 11) :=
      fromReader_modern f s (.yes .detect) net hm (by omega) hver hnet
    have hsp1 : fromReader f s (.yes (.specify net)) =
        (if net = net then finishHeader (some net) .needTxid (s.drop 11)
         else .err (.networkMismatch net net)) :=
      fromReader_modern f s (.yes (.specify net)) net hm (by omega) hver hnet
    have hsp2 : fromReader f s (.yes (.specify spec)) =
        (if spec = net then finishHeader (some net) .needTxid (s.drop 11)
         else .err (.networkMismatch net spec)) :=
      fromReader_modern f s (.yes (.specify spec)) net hm (by omega) hver hnet
    rw [if_pos rfl] at hsp1
    have hfinN := finishHeader_ok none (.needTxid) (s.drop 11) h40
    have hfinS := finishHeader_ok (some net) (.needTxid) (s.drop 11) h40
    refine ⟨?_, ?_, ?_, ?_, ?_, ?_, ?_⟩
    · intro d hd
      rw [hno, hfinN] at hd
      injection hd with hdd
      rw [← hdd]
    · rw [hno, hfinN]
      rfl
    · intro d hd
      rw [hdet, hfinS] at hd
      injection hd with hdd
      rw [← hdd]
    · rw [hdet, hfinS]
      rfl
    · intro d hd
      rw [hsp1, hfinS] at hd
      injection hd with hdd
      rw [← hdd]
    · rw [hsp1, hfinS]
      rfl
    · intro hne
      rw [hsp2, if_neg hne]
  · intro hm hl5
    have hdet : fromReader f s (.yes .detect) = .err .networkDetect :=
      fromReader_legacy f s (.yes .detect) hm hl5
    refine ⟨hdet, ?_⟩
    intro hl40
    have hno : fromReader f s .no = finishHeader none .legacy s :=
      fromReader_legacy f s .no hm hl5
    have hsp : fromReader f s (.yes (.specify spec)) =
        finishHeader (some spec) .legacy s :=
      fromReader_legacy f s (.yes (.specify spec)) hm hl5
    have hfinN := finishHeader_ok none .legacy s hl40
    have hfinS := finishHeader_ok (some spec) .legacy s hl40
    refine ⟨?_, ?_, ?_, ?_⟩
    · intro d hd
      rw [hno, hfinN] at hd
      injection hd with hdd
      rw [← hdd]
    · rw [hno, hfinN]
      rfl
    · intro d hd
      rw [hsp, hfinS] at hd
      injection hd with hdd
      rw [← hdd]
    · rw [hsp, hfinS]
      rfl

/-- C1 counterexample: the spec-quoted token (u, x, t, o, 0xFF) differs
from the constant in the code, and an input whose first five bytes equal
the spec-quoted token is parsed as a legacy file (its block hash is read
from the very first byte after a rewind), not as a modern file as the
claim requires. -/
theorem c1_counterexample :
    specSnapshotMagic ≠ SNAPSHOT_MAGIC ∧
    ((specSnapshotMagic ++ List.replicate 40 0).take 5).map (fun b => b % 256) =
      specSnapshotMagic ∧
    fromReader (fun _ => none) (specSnapshotMagic ++ List.replicate 40 0) .no =
      .ok { addressNetwork := none,
            blockHash := specSnapshotMagic ++ List.replicate 27 0,
            state := .legacy,
            utxoSetSize := 0,
            stream := List.replicate 5 0 } := by
  refine ⟨by decide, by decide, by decide⟩

/-- Witness for C1: the legacy direction applied to a 40-byte all-zero
file, whose first five bytes differ from the magic. -/
theorem c1_witness :
    fromReader (fun _ => none) (List.replicate 40 0) .no =
      .ok { addressNetwork := none,
            blockHash := ((List.replicate 40 0).take 32).map (fun b => b % 256),
            state := .legacy,
            utxoSetSize := leVal (((List.replicate 40 0).drop 32).take 8),
            stream := ((List.replicate 40 0).drop 32).drop 8 } :=
  (c1_magic_layout_detection (fun _ => none) (List.replicate 40 0)).2
    (by decide) (by decide)

/-- C2 counterexample: on a stream whose first group has a CompactSize of
1, the claim predicts 1 + 1 = 2 records under the first txid, but the code
produces exactly one record under the first txid and the second pull reads
the next group's different txid. -/
theorem c2_counterexample :
    (compactSizeDecode (List.drop 32 twoGroupStream)).1 = .ok 1 ∧
    ((pullN (fun _ _ => false) 2 .needTxid twoGroupStream).1.map
      (fun o => o.map TxOutM.txid)) =
      [some (List.replicate 32 170), some (List.replicate 32 187)] ∧
    (List.replicate 32 170 : Bytes) ≠ List.replicate 32 187 := by
  refine ⟨by decide, by decide, by decide⟩

/-- Witness for C2: the amended group law applied to the concrete
two-group stream, whose first group declares a CompactSize of 1 and yields
exactly one record under its txid. -/
theorem c2_witness :
    ([some recA] : List (Option TxOutM)).length = 1 ∧
    (∀ o ∈ ([some recA] : List (Option TxOutM)), ∀ x, o = some x →
      x.txid = List.replicate 32 170) ∧
    MState.needTxid = MState.needTxid :=
  c2_group_record_count (fun _ _ => false) twoGroupStream
    (List.drop 32 twoGroupStream) (List.drop 33 twoGroupStream)
    (List.replicate 32 170) 1 [some recA] .needTxid
    (List.drop 37 twoGroupStream)
    (by decide) (by decide) (by norm_num) (by decide) (by decide)

/-- C3 counterexample: a pull whose code decode fails produces no record,
but the following pull resumes at the current (misaligned) position and
produces a record, so a decode failure does not end the sequence
permanently. -/
theorem c3_counterexample :
    (dumpNext (fun _ _ => false) .legacy failThenGoodStream).1 = none ∧
    ((dumpNext (fun _ _ => false) .legacy
        (dumpNext (fun _ _ => false) .legacy failThenGoodStream).2.2).1).isSome
      = true := by
  refine ⟨by decide, by decide⟩

/-- Witness for C8: the mismatch case applied to a concrete modern header
whose magic maps to network 42 while network 5 is specified. -/
theorem c8_witness :
    fromReader (fun _ => some 42) modernHeader (.yes (.specify 5)) =
      .err (.networkMismatch 42 5) :=
  (((c8_network_resolution (fun _ => some 42) modernHeader 42 5).1 (by decide)
    (by decide) (by decide) rfl).2.2.2.2.2.2) (by decide)

/-- Witness for C9: after one successful pull on the three-output group
stream the state is haveTxid with remaining count 2, and the invariant
applied to this reachable state yields its positivity. -/
theorem c9_witness :
    (dumpNext (fun _ _ => false) .needTxid groupStream).2.1 =
      .haveTxid (List.replicate 32 7) 2 ∧ (1 : Nat) ≤ 2 :=
  ⟨by decide,
    (c9_state_invariant (fun _ _ => false) _ _
        (Reachable.step _ _ (Reachable.initNeed groupStream))).1
      (List.replicate 32 7) 2 (by decide)⟩
